import Mathlib

/-
Verification development for the portfolio-chatbot core
(KnowledgeBase / QueryProcessor / ConversationManager).

Modelling conventions:
* JavaScript strings are modelled as `List Char`; `toLowerCase`, `trim`,
  `includes` and word-boundary regular-expression tests are modelled
  character-by-character (ASCII-faithful).
* JavaScript runtime values (the knowledge-base records, message contents,
  parsed JSON) are modelled by the inductive type `JsVal`.  Numbers are
  modelled as integers: none of the verified properties depends on
  fractional numeric data, and integer stringification agrees with
  JavaScript `String()` on the safe integer range.
* Relevance scores are rationals (`ℚ`); the source only ever produces
  multiples of 1/2 divided by small counts, all exactly representable.
* `Array.prototype.sort` (stable in ECMAScript 2019+) with comparator
  `(a, b) => b.relevance - a.relevance` is modelled by the stable
  `List.insertionSort` with the relation `b.relevance ≤ a.relevance`.
-/

namespace Chatbot

/-- Model of `String.prototype.toLowerCase` (ASCII case folding). -/
def foldLower (l : List Char) : List Char := l.map Char.toLower

/-- Model of `String.prototype.trim`. -/
def trimStr (l : List Char) : List Char :=
  ((l.dropWhile Char.isWhitespace).reverse.dropWhile Char.isWhitespace).reverse

/-- Model of `text.includes(pat)` : `pat` occurs as a contiguous substring. -/
def containsSub (pat : List Char) : List Char → Bool
  | [] => pat.isEmpty
  | c :: rest => pat.isPrefixOf (c :: rest) || containsSub pat rest

/-- Word characters of the regex `\b` / `\w` classes: `[A-Za-z0-9_]`. -/
def isWordChar (c : Char) : Bool := c.isAlphanum || c = '_'

/-- Whether the character at position `p` of `text` is a word character
(out-of-range positions count as non-word). -/
def wordAt (text : List Char) (p : Nat) : Bool :=
  match text.drop p with
  | c :: _ => isWordChar c
  | [] => false

/-- Regex `\b` (word boundary) holds at position `p`: the word-ness of the
character before `p` differs from the word-ness of the character at `p`. -/
def boundaryAt (text : List Char) (p : Nat) : Bool :=
  (if p = 0 then false else wordAt text (p - 1)) != wordAt text p

/-- Model of the case-insensitive whole-word regex test
`new RegExp('\\b' + escapeRegex(pat) + '\\b', 'i').test(text)`:
some occurrence of `pat` in `text` is delimited by word boundaries.
Both sides are case-folded, matching the `i` flag. -/
def wholeWord (pat text : List Char) : Bool :=
  let p := foldLower pat
  let t := foldLower text
  (List.range (t.length + 1)).any fun i =>
    p.isPrefixOf (t.drop i) && boundaryAt t i && boundaryAt t (i + p.length)

/-- Join a list of strings with a separator (model of `Array.prototype.join`). -/
def joinSep (sep : List Char) : List (List Char) → List Char
  | [] => []
  | [x] => x
  | x :: y :: rest => x ++ sep ++ joinSep sep (y :: rest)

/-- Delimiters of the keyword-splitting regex `/[\s,;]+/`. -/
def isDelim (c : Char) : Bool := c.isWhitespace || c = ',' || c = ';'

/-- Model of `s.split(/[\s,;]+/)`: splitting at every single delimiter and
later filtering out empty chunks is extensionally the same as splitting at
delimiter runs (the source filters out empty strings right after the split). -/
def tokenize (l : List Char) : List (List Char) := l.splitOnP isDelim

/-- Model of JavaScript runtime values (JSON-style data plus `undefined`). -/
inductive JsVal where
  | vNull : JsVal
  | vUndef : JsVal
  | vBool (b : Bool) : JsVal
  | vNum (n : Int) : JsVal
  | vStr (s : List Char) : JsVal
  | vArr (xs : List JsVal) : JsVal
  | vObj (fields : List (List Char × JsVal)) : JsVal

/-- JavaScript truthiness (`!v` is the negation of this): `null`,
`undefined`, `false`, `0` and the empty string are falsy. -/
def jsFalsy : JsVal → Bool
  | .vNull => true
  | .vUndef => true
  | .vBool b => !b
  | .vNum n => n = 0
  | .vStr s => s.isEmpty
  | .vArr _ => false
  | .vObj _ => false

mutual

/-- Model of `KnowledgeBase._itemToSearchText`: strings pass through,
numbers and booleans stringify, arrays and object values are joined with
spaces (field names ignored), anything else becomes the empty string. -/
def itemToSearchText : JsVal → List Char
  | .vStr s => s
  | .vNum n => (toString n).data
  | .vBool b => (toString b).data
  | .vArr xs => joinSep ([' ']) (itemTextList xs)
  | .vObj fs => joinSep ([' ']) (itemTextFields fs)
  | .vNull => []
  | .vUndef => []

/-- Search-text of each element of an array (helper for `itemToSearchText`). -/
def itemTextList : List JsVal → List (List Char)
  | [] => []
  | x :: rest => itemToSearchText x :: itemTextList rest

/-- Search-text of each object value (helper for `itemToSearchText`). -/
def itemTextFields : List (List Char × JsVal) → List (List Char)
  | [] => []
  | (_, v) :: rest => itemToSearchText v :: itemTextFields rest

end

mutual

/-- Model of the JavaScript `String(v)` conversion. -/
def jsToString : JsVal → List Char
  | .vNull => ("null").data
  | .vUndef => ("undefined").data
  | .vBool b => (toString b).data
  | .vNum n => (toString n).data
  | .vStr s => s
  | .vObj _ => ("[object Object]").data
  | .vArr xs => joinSep ([',']) (jsToStringList xs)

/-- `String()` of array elements for `Array.prototype.join`: `null` and
`undefined` elements render as the empty string. -/
def jsToStringList : List JsVal → List (List Char)
  | [] => []
  | x :: rest =>
    (match x with
     | .vNull => []
     | .vUndef => []
     | y => jsToString y) :: jsToStringList rest

end

/-- The flattened lowercase search text of an item
(`_itemToSearchText(item).toLowerCase()`). -/
def searchTextOf (item : JsVal) : List Char := foldLower (itemToSearchText item)

/-- The points one keyword contributes in `_calculateRelevance`:
1 for a whole-word match, 1/2 for a substring match, 0 otherwise. -/
def pointsOf (text k : List Char) : ℚ :=
  if wholeWord k text then 1 else if containsSub k text then 1/2 else 0

/-- The accumulation loop of `_calculateRelevance`: returns
`(matchCount, totalWeight)`; keywords of length < 2 are skipped. -/
def relLoop : List (List Char) → List Char → ℚ × Nat
  | [], _ => (0, 0)
  | k :: ks, text =>
    let r := relLoop ks text
    if k.length < 2 then r
    else (r.1 + pointsOf text k, r.2 + 1)

/-- Model of `KnowledgeBase._calculateRelevance`. -/
def calculateRelevance (item : JsVal) (keywords : List (List Char)) : ℚ :=
  if jsFalsy item || keywords.isEmpty then 0
  else
    let searchText := searchTextOf item
    if searchText.isEmpty then 0
    else
      let r := relLoop keywords searchText
      if r.2 = 0 then 0 else r.1 / r.2

/-- Relevance as the specification words it (§4.1 of the spec): the sum of
points over the keywords of length ≥ 2 divided by their count, 0 when no
keyword qualifies.  Stated from the spec text, to be compared with
`calculateRelevance`, which is translated from the source. -/
def specRelevance (item : JsVal) (keywords : List (List Char)) : ℚ :=
  let text := searchTextOf item
  let qual := keywords.filter fun k => 2 ≤ k.length
  if qual.length = 0 then 0
  else ((qual.map fun k => pointsOf text k).sum) / qual.length

/-- A search result of `KnowledgeBase.search` / `query`. -/
structure SearchResult where
  data : JsVal
  relevance : ℚ
  category : Option String
  field : Option (List Char)

/-- The array-scanning loop of `KnowledgeBase._searchInData`: keeps the
items of positive relevance, in order. -/
def searchArr (kws : List (List Char)) (cat : Option String)
    (fname : Option (List Char)) : List JsVal → List SearchResult
  | [] => []
  | it :: rest =>
    let r := calculateRelevance it kws
    if 0 < r then ⟨it, r, cat, fname⟩ :: searchArr kws cat fname rest
    else searchArr kws cat fname rest

/-- The nested-array loop of `KnowledgeBase._searchInData`: scans every
array-valued field of an object, tagging results with the field name. -/
def searchNested (kws : List (List Char)) (cat : Option String) :
    List (List Char × JsVal) → List SearchResult
  | [] => []
  | (k, v) :: rest =>
    (match v with
     | .vArr items => searchArr kws cat (some k) items
     | _ => []) ++ searchNested kws cat rest

/-- Model of `KnowledgeBase._searchInData`. -/
def searchInData (d : JsVal) (kws : List (List Char)) (cat : Option String) :
    List SearchResult :=
  match d with
  | .vArr items => searchArr kws cat none items
  | .vObj fields =>
    let r := calculateRelevance (.vObj fields) kws
    (if 0 < r then [⟨.vObj fields, r, cat, none⟩] else []) ++ searchNested kws cat fields
  | _ => []

/-- The array-scanning loop of `KnowledgeBase._searchInDataOptimized`:
also returns whether a high-confidence early return fired, in which case
the scan stopped right after the triggering item. -/
def scanArr (kws : List (List Char)) (cat : Option String)
    (fname : Option (List Char)) (et : Bool) (thr : ℚ) :
    List JsVal → List SearchResult × Bool
  | [] => ([], false)
  | it :: rest =>
    let r := calculateRelevance it kws
    if 0 < r then
      if et && decide (thr ≤ r) then ([⟨it, r, cat, fname⟩], true)
      else
        let tail := scanArr kws cat fname et thr rest
        (⟨it, r, cat, fname⟩ :: tail.1, tail.2)
    else scanArr kws cat fname et thr rest

/-- The nested-array loop of `KnowledgeBase._searchInDataOptimized`. -/
def scanFields (kws : List (List Char)) (cat : Option String) (et : Bool)
    (thr : ℚ) : List (List Char × JsVal) → List SearchResult × Bool
  | [] => ([], false)
  | (k, v) :: rest =>
    match v with
    | .vArr items =>
      let res := scanArr kws cat (some k) et thr items
      if res.2 then res
      else
        let more := scanFields kws cat et thr rest
        (res.1 ++ more.1, more.2)
    | _ => scanFields kws cat et thr rest

/-- Model of `KnowledgeBase._searchInDataOptimized`. -/
def searchInDataOptimized (d : JsVal) (kws : List (List Char))
    (cat : Option String) (et : Bool) (thr : ℚ) : List SearchResult :=
  match d with
  | .vArr items => (scanArr kws cat none et thr items).1
  | .vObj fields =>
    let r := calculateRelevance (.vObj fields) kws
    if 0 < r then
      if et && decide (thr ≤ r) then [⟨.vObj fields, r, cat, none⟩]
      else ⟨.vObj fields, r, cat, none⟩ :: (scanFields kws cat et thr fields).1
    else (scanFields kws cat et thr fields).1
  | _ => []

/-- The knowledge base: categorized records (iteration order is the key
insertion order of the data object) and the configured high-confidence
threshold (`options.highConfidenceThreshold || 0.85`). -/
structure KB where
  data : List (String × JsVal)
  highConfidenceThreshold : ℚ

/-- Descending-relevance ordering used by the comparator
`(a, b) => b.relevance - a.relevance`. -/
def relGE (a b : SearchResult) : Prop := b.relevance ≤ a.relevance

instance : DecidableRel relGE :=
  fun a b => inferInstanceAs (Decidable (b.relevance ≤ a.relevance))

instance : IsTotal SearchResult relGE :=
  ⟨fun a b => le_total b.relevance a.relevance⟩

instance : IsTrans SearchResult relGE :=
  ⟨fun _ _ _ h1 h2 => le_trans h2 h1⟩

/-- Model of `results.sort((a, b) => b.relevance - a.relevance)`:
a stable sort into descending relevance order. -/
def sortByRelevance (l : List SearchResult) : List SearchResult :=
  l.insertionSort relGE

/-- The category loop of `KnowledgeBase.search`: accumulates per-category
results and early-exits (sorting what was accumulated) as soon as a
category yields a result at or above the threshold. -/
def searchCats (kws : List (List Char)) (et : Bool) (thr : ℚ) :
    List (String × JsVal) → List SearchResult → List SearchResult
  | [], acc => sortByRelevance acc
  | (c, d) :: rest, acc =>
    let catRes := searchInDataOptimized d kws (some c) et thr
    let acc' := acc ++ catRes
    if et && catRes.any (fun r => decide (thr ≤ r.relevance)) then sortByRelevance acc'
    else searchCats kws et thr rest acc'

/-- The `keywords` argument of `search` before normalization: a string,
an array, or anything else (normalized to no keywords). -/
inductive KeywordsInput where
  | ofStr (s : List Char) : KeywordsInput
  | ofList (l : List JsVal) : KeywordsInput
  | other : KeywordsInput

/-- Model of `KnowledgeBase._normalizeKeywords`. -/
def normalizeKeywords : KeywordsInput → List (List Char)
  | .ofStr s => (((tokenize (foldLower s)).map trimStr).filter fun k => 0 < k.length)
  | .ofList l =>
    ((l.filterMap fun v =>
      match v with
      | .vStr s => some (trimStr (foldLower s))
      | _ => none).filter fun k => 0 < k.length)
  | .other => []

/-- Model of `KnowledgeBase.search(keywords, { earlyTermination: et })`. -/
def search (kb : KB) (kwIn : KeywordsInput) (et : Bool) : List SearchResult :=
  let kws := normalizeKeywords kwIn
  if kws.isEmpty then []
  else searchCats kws et kb.highConfidenceThreshold kb.data []

/-- One category's two tiers of intent patterns. -/
structure PatternTiers where
  high : List String
  medium : List String

/-- The intent-pattern table of `QueryProcessor`, in object-literal
iteration order. -/
def intentPatterns : List (String × PatternTiers) :=
  [ ("experience",
     ⟨["experience", "career", "employment", "job history", "work history",
       "positions held", "professional background", "positions", "work experience"],
      ["work", "job", "worked", "working", "position", "role", "company",
       "amazon", "werp", "history", "background", "professional", "timeline",
       "years", "held", "jobs"]⟩),
    ("skills",
     ⟨["skill", "skills", "technology", "technologies", "programming",
       "technical abilities", "expertise"],
      ["tech", "know", "language", "languages", "framework", "frameworks",
       "tool", "tools", "proficient", "capable", "ability", "abilities",
       "competent", "python", "javascript", "playwright", "selenium",
       "pytest", "aws", "cloud"]⟩),
    ("projects",
     ⟨["project", "projects", "portfolio work", "what have you built",
       "what did you build", "framework development"],
      ["built", "build", "created", "developed", "development", "savings",
       "cost", "impact", "solutions"]⟩),
    ("awards",
     ⟨["award", "awards", "recognition", "recognized", "honors", "prize",
       "prizes", "accomplishment", "accomplishments", "accolades"],
      ["achievement", "achievements", "honor", "won", "received",
       "innovation", "excellence", "leadership"]⟩),
    ("contact",
     ⟨["contact", "email", "linkedin", "github", "reach out", "get in touch",
       "how to reach"],
      ["reach", "connect", "social", "message", "hire", "hiring", "location",
       "where", "based", "live", "located", "find", "touch"]⟩),
    ("certifications",
     ⟨["certification", "certifications", "certified", "certificate",
       "certificates", "qualifications", "credentials", "credential"],
      ["course", "courses", "training", "learn", "learned", "education",
       "qualification"]⟩),
    ("personal",
     ⟨["who are you", "about yourself", "introduce yourself", "introduction",
       "dinakaran"],
      ["who", "yourself", "introduce", "name", "summary", "overview",
       "describe yourself"]⟩) ]

/-- The per-category score of `QueryProcessor.detectIntent`: each high
pattern adds 5 on a substring phrase match, else 4 on a whole-word match;
each medium pattern adds 2 on a whole-word match, else 1 on a substring
match. -/
def categoryScore (q : List Char) (pats : PatternTiers) : Nat :=
  (pats.high.foldl (fun s p =>
     if containsSub p.data q then s + 5
     else if wholeWord p.data q then s + 4
     else s) 0)
  +
  (pats.medium.foldl (fun s p =>
     if wholeWord p.data q then s + 2
     else if containsSub p.data q then s + 1
     else s) 0)

/-- `query.toLowerCase().trim()` as done by `detectIntent`
(the query was already trimmed and lowercased by `processQuery`, but
`detectIntent` re-normalizes). -/
def normalizeQuery (q : List Char) : List Char := foldLower (trimStr q)

/-- The score of every intent category on a query, in iteration order. -/
def intentScores (q : List Char) : List (String × Nat) :=
  intentPatterns.map fun x => (x.1, categoryScore (normalizeQuery q) x.2)

/-- One step of the maximum-selection loop of `detectIntent`: replace the
current best exactly on a strictly greater score. -/
def pickStep (acc : Nat × String) (p : String × Nat) : Nat × String :=
  if acc.1 < p.2 then (p.2, p.1) else acc

/-- The maximum-selection loop of `detectIntent`: starts from
`(0, "general")` and replaces the current best on a strictly greater
score. -/
def pickBest (l : List (String × Nat)) : Nat × String :=
  l.foldl pickStep (0, ("general" : String))

/-- The maximum category score of a query. -/
def maxIntentScore (q : List Char) : Nat :=
  (intentScores q).foldl (fun m p => max m p.2) 0

/-- Model of `QueryProcessor.detectIntent`. -/
def detectIntent (q : List Char) : String :=
  if q.isEmpty then "general"
  else
    let best := pickBest (intentScores q)
    if best.1 < 2 then "general" else best.2

/-- The message id `msg_<time>_<counter>` generated by
`ConversationManager._generateId`.  Decimal digits contain no underscore,
so the two components are recoverable from the rendered string (split at
the last underscore) and the pair faithfully stands for the string. -/
structure MsgId where
  time : Int
  counter : Nat
deriving DecidableEq

/-- Rendering of a message id as the actual id string. -/
def renderMsgId (id : MsgId) : List Char :=
  ("msg_").data ++ (toString id.time).data ++ ("_").data ++ (toString id.counter).data

/-- A stored message of `ConversationManager`. -/
structure Message where
  id : MsgId
  content : List Char
  sender : List Char
  timestamp : Int
deriving DecidableEq

/-- The mutable state of a `ConversationManager`. -/
structure ConvState where
  messages : List Message
  messageIdCounter : Nat
  maxMessages : Nat
deriving DecidableEq

/-- The constructor: empty history, counter 0, and
`options.maxMessages || 100` (a falsy 0 falls back to the default). -/
def mkConversationManager (maxMessages : Option Nat) : ConvState :=
  ⟨[], 0,
    match maxMessages with
    | some m => if m = 0 then 100 else m
    | none => 100⟩

/-- Model of `ConversationManager._enforceMessageLimit`: drop the oldest
messages until the length is within the limit. -/
def enforceMessageLimit (msgs : List Message) (maxM : Nat) : List Message :=
  if maxM < msgs.length then msgs.drop (msgs.length - maxM) else msgs

/-- The last `n` elements of a list, in order. -/
def lastN {α : Type} (l : List α) (n : Nat) : List α := l.drop (l.length - n)

/-- Model of `ConversationManager.addMessage(content, sender, timestamp)`.
`now` stands for the ambient `Date.now()` of the call.  Throws (returns
`.error`) on null/undefined content or an invalid sender, before any
mutation; otherwise stores `String(content)` under a fresh id and enforces
the history cap. -/
def addMessage (st : ConvState) (content : JsVal) (sender : List Char)
    (timestamp : Option Int) (now : Int) : Except (List Char) (ConvState × Message) :=
  match content with
  | .vNull => .error (("Message content is required").data)
  | .vUndef => .error (("Message content is required").data)
  | _ =>
    if sender = ("user").data ∨ sender = ("bot").data then
      let ctr := st.messageIdCounter + 1
      let msg : Message := ⟨⟨now, ctr⟩, jsToString content, sender, timestamp.getD now⟩
      .ok ({ st with
              messages := enforceMessageLimit (st.messages ++ [msg]) st.maxMessages,
              messageIdCounter := ctr }, msg)
    else .error (("Sender must be either user or bot").data)

/-- Model of `ConversationManager.getHistory` (the defensive copy equals
the internal list). -/
def getHistory (st : ConvState) : List Message := st.messages

/-- Model of `ConversationManager.clear`: empties the history and keeps
the id counter. -/
def clearConv (st : ConvState) : ConvState := { st with messages := [] }

/-- The inputs of one `addMessage` call (with its ambient `Date.now()`). -/
structure AddInput where
  content : JsVal
  sender : List Char
  timestamp : Option Int
  now : Int

/-- Run a sequence of `addMessage` calls; failed (throwing) calls leave
the state unchanged.  Returns the final state and the messages created by
the successful calls, in call order. -/
def runAdds (st : ConvState) : List AddInput → ConvState × List Message
  | [] => (st, [])
  | i :: rest =>
    match addMessage st i.content i.sender i.timestamp i.now with
    | .ok (st', m) =>
      let r := runAdds st' rest
      (r.1, m :: r.2)
    | .error _ => runAdds st rest

/-- An operation of the C7 claim: an `addMessage` call or a `clear()`. -/
inductive ConvOp where
  | add (i : AddInput) : ConvOp
  | clearOp : ConvOp

/-- Run a sequence of `addMessage` / `clear` operations, collecting the
messages created by the successful `addMessage` calls. -/
def runOps (st : ConvState) : List ConvOp → ConvState × List Message
  | [] => (st, [])
  | .add i :: rest =>
    match addMessage st i.content i.sender i.timestamp i.now with
    | .ok (st', m) =>
      let r := runOps st' rest
      (r.1, m :: r.2)
    | .error _ => runOps st rest
  | .clearOp :: rest => runOps (clearConv st) rest

/-- The untyped `(messages, messageIdCounter)` pair as restored from JSON:
`restore` performs no validation of the array elements, so the restored
message list is raw JSON data. -/
structure RawConv where
  messages : List JsVal
  messageIdCounter : Int

/-- JSON encoding of a stored message, as produced by
`JSON.stringify`/`JSON.parse` of a message object. -/
def encodeMsg (m : Message) : JsVal :=
  .vObj [(("id").data, .vStr (renderMsgId m.id)),
         (("content").data, .vStr m.content),
         (("sender").data, .vStr m.sender),
         (("timestamp").data, .vNum m.timestamp)]

/-- Property access `v.k` on a parsed JSON value: a field of an object,
`undefined` (here `none`) on any non-object. -/
def getField (v : JsVal) (k : List Char) : Option JsVal :=
  match v with
  | .vObj fields => fields.lookup k
  | _ => none

/-- The argument of `restore`: either a string that fails `JSON.parse`,
or the parsed JSON value.  `JSON.stringify` followed by `JSON.parse` is
modelled as the identity on JSON values. -/
inductive RestoreInput where
  | parseFail : RestoreInput
  | parsedVal (v : JsVal) : RestoreInput

/-- Model of `ConversationManager.serialize`:
`JSON.stringify({ messages, messageIdCounter })`, presented as the JSON
value a later `JSON.parse` recovers. -/
def serialize (st : ConvState) : RestoreInput :=
  .parsedVal (.vObj [(("messages").data, .vArr (st.messages.map encodeMsg)),
                     (("messageIdCounter").data, .vNum st.messageIdCounter)])

/-- Model of `ConversationManager.restore`: parse failures (and the
property-access `TypeError` on a parsed `null`/`undefined`) are caught and
return `false` with the state untouched; otherwise `messages` is replaced
exactly when `parsed.messages` is an array, `messageIdCounter` exactly
when `parsed.messageIdCounter` is a number, and the call returns `true`. -/
def restore (st : RawConv) (input : RestoreInput) : RawConv × Bool :=
  match input with
  | .parseFail => (st, false)
  | .parsedVal .vNull => (st, false)
  | .parsedVal .vUndef => (st, false)
  | .parsedVal v =>
    let st1 :=
      match getField v (("messages").data) with
      | some (.vArr a) => { st with messages := a }
      | _ => st
    let st2 :=
      match getField v (("messageIdCounter").data) with
      | some (.vNum n) => { st1 with messageIdCounter := n }
      | _ => st1
    (st2, true)

theorem enforce_eq_lastN (msgs : List Message) (maxM : Nat) :
    enforceMessageLimit msgs maxM = lastN msgs maxM := by
  unfold enforceMessageLimit lastN
  split
  · rfl
  · have h : msgs.length - maxM = 0 := by omega
    rw [h, List.drop_zero]

theorem length_lastN_le {α : Type} (l : List α) (n : Nat) :
    (lastN l n).length ≤ n := by
  unfold lastN
  rw [List.length_drop]
  omega

theorem lastN_append_lastN {α : Type} (l t : List α) (n : Nat) :
    lastN (lastN l n ++ t) n = lastN (l ++ t) n := by
  unfold lastN
  by_cases h : l.length ≤ n
  · have h0 : l.length - n = 0 := by omega
    rw [h0, List.drop_zero]
  · push_neg at h
    have hk : l.length - n ≤ l.length := by omega
    rw [← List.drop_append_of_le_length hk, List.drop_drop]
    congr 1
    simp only [List.length_drop, List.length_append]
    omega

theorem addMessage_ok_spec (st : ConvState) (content : JsVal) (sender : List Char)
    (ts : Option Int) (now : Int) (st' : ConvState) (m : Message)
    (h : addMessage st content sender ts now = .ok (st', m)) :
    st' = { st with
            messages := enforceMessageLimit (st.messages ++ [m]) st.maxMessages,
            messageIdCounter := st.messageIdCounter + 1 } ∧
    m.id.counter = st.messageIdCounter + 1 := by
  cases content <;> simp only [addMessage] at h
  case vNull => exact Except.noConfusion h
  case vUndef => exact Except.noConfusion h
  all_goals (
    split at h
    · simp only [Except.ok.injEq, Prod.mk.injEq] at h
      obtain ⟨h1, h2⟩ := h
      subst h1
      subst h2
      exact ⟨rfl, rfl⟩
    · exact Except.noConfusion h)

theorem runAdds_messages (st : ConvState) (ins : List AddInput)
    (h : st.messages.length ≤ st.maxMessages) :
    (runAdds st ins).1.messages
      = lastN (st.messages ++ (runAdds st ins).2) st.maxMessages ∧
    (runAdds st ins).1.maxMessages = st.maxMessages := by
  induction ins generalizing st with
  | nil =>
    constructor
    · show st.messages = lastN (st.messages ++ []) st.maxMessages
      rw [List.append_nil]
      unfold lastN
      have h0 : st.messages.length - st.maxMessages = 0 := by omega
      rw [h0, List.drop_zero]
    · rfl
  | cons i rest ih =>
    simp only [runAdds]
    cases hadd : addMessage st i.content i.sender i.timestamp i.now with
    | error e => exact ih st h
    | ok p =>
      obtain ⟨st', m⟩ := p
      dsimp only
      obtain ⟨hst', _⟩ := addMessage_ok_spec st i.content i.sender i.timestamp i.now st' m hadd
      have hlen : st'.messages.length ≤ st'.maxMessages := by
        rw [hst']
        simpa only [enforce_eq_lastN] using length_lastN_le (st.messages ++ [m]) st.maxMessages
      obtain ⟨ih1, ih2⟩ := ih st' hlen
      constructor
      · rw [ih1, hst']
        simp only [enforce_eq_lastN]
        rw [lastN_append_lastN, List.append_assoc]
        rfl
      · rw [ih2, hst']

/-- C3: after any sequence of `addMessage` calls on a freshly constructed
`ConversationManager`, `getHistory()` has length at most `maxMessages` and
consists exactly of the most recently created `maxMessages` messages, in
their original insertion order (oldest evicted first).  Calls that throw
create no message and change nothing. -/
theorem history_cap (maxOpt : Option Nat) (ins : List AddInput) :
    (getHistory (runAdds (mkConversationManager maxOpt) ins).1).length
      ≤ (mkConversationManager maxOpt).maxMessages ∧
    getHistory (runAdds (mkConversationManager maxOpt) ins).1
      = lastN (runAdds (mkConversationManager maxOpt) ins).2
          (mkConversationManager maxOpt).maxMessages := by
  have h0 : (mkConversationManager maxOpt).messages.length
      ≤ (mkConversationManager maxOpt).maxMessages := by
    cases maxOpt <;> simp [mkConversationManager]
  obtain ⟨h1, _⟩ := runAdds_messages (mkConversationManager maxOpt) ins h0
  have hnil : (mkConversationManager maxOpt).messages = [] := by
    cases maxOpt <;> rfl
  rw [hnil] at h1
  simp only [List.nil_append] at h1
  exact ⟨by rw [getHistory, h1]; exact length_lastN_le _ _, by rw [getHistory, h1]⟩

theorem runOps_counter_spec (st : ConvState) (ops : List ConvOp) :
    st.messageIdCounter ≤ (runOps st ops).1.messageIdCounter ∧
    (∀ m ∈ (runOps st ops).2, st.messageIdCounter < m.id.counter) ∧
    (runOps st ops).2.Pairwise (fun a b => a.id.counter < b.id.counter) := by
  induction ops generalizing st with
  | nil => simp [runOps]
  | cons op rest ih =>
    cases op with
    | clearOp =>
      simp only [runOps]
      have h := ih (clearConv st)
      simpa only [clearConv] using h
    | add i =>
      simp only [runOps]
      cases hadd : addMessage st i.content i.sender i.timestamp i.now with
      | error e => exact ih st
      | ok p =>
        obtain ⟨st', m⟩ := p
        dsimp only
        obtain ⟨hst', hm⟩ := addMessage_ok_spec st i.content i.sender i.timestamp i.now st' m hadd
        have hctr : st'.messageIdCounter = st.messageIdCounter + 1 := by rw [hst']
        obtain ⟨ih1, ih2, ih3⟩ := ih st'
        refine ⟨by omega, ?_, ?_⟩
        · intro x hx
          simp only [List.mem_cons] at hx
          rcases hx with hx | hx
          · subst hx; omega
          · have := ih2 x hx; omega
        · refine List.Pairwise.cons ?_ ih3
          intro x hx
          have := ih2 x hx
          omega

/-- C7: across any sequence of `addMessage` and `clear` operations, no two
created messages share an id (the id embeds the strictly increasing
counter), and `clear()` does not reset the id counter. -/
theorem message_id_unique (maxOpt : Option Nat) (ops : List ConvOp) :
    (runOps (mkConversationManager maxOpt) ops).2.Pairwise (fun a b => a.id ≠ b.id) ∧
    ∀ st : ConvState, (clearConv st).messageIdCounter = st.messageIdCounter := by
  refine ⟨?_, fun st => rfl⟩
  have h := (runOps_counter_spec (mkConversationManager maxOpt) ops).2.2
  exact h.imp fun hlt heq => by rw [heq] at hlt; omega

/-- C8: restoring a serialized conversation state succeeds (returns
`true`) and reproduces exactly the serialized messages, in order, with the
id counter preserved; each encoded message preserves the id, content,
sender and timestamp fields of the original. -/
theorem serialize_restore_roundtrip (st0 : RawConv) (S : ConvState) :
    restore st0 (serialize S)
      = (⟨S.messages.map encodeMsg, (S.messageIdCounter : Int)⟩, true) ∧
    ∀ m : Message,
      getField (encodeMsg m) (("id").data) = some (.vStr (renderMsgId m.id)) ∧
      getField (encodeMsg m) (("content").data) = some (.vStr m.content) ∧
      getField (encodeMsg m) (("sender").data) = some (.vStr m.sender) ∧
      getField (encodeMsg m) (("timestamp").data) = some (.vNum m.timestamp) := by
  constructor
  · rfl
  · intro m
    refine ⟨rfl, rfl, rfl, rfl⟩

/-- C9 counterexample: the input string `"null"` parses successfully
(`JSON.parse` yields `null`), yet `restore` returns `false` (the property
access on the parsed `null` throws and is caught), contradicting the
claim that `false` is returned exactly when the input fails to parse. -/
theorem restore_parsed_null_cex :
    restore ⟨[], 0⟩ (.parsedVal .vNull) = (⟨[], 0⟩, false) ∧
    RestoreInput.parsedVal .vNull ≠ RestoreInput.parseFail := by
  exact ⟨rfl, by intro h; cases h⟩

/-- C9 (amended): `restore` returns `false` with the state untouched
exactly when the input fails to parse or parses to `null`/`undefined`
(whose property access throws); otherwise it returns `true` and updates
each field independently: `messages` is replaced exactly when
`parsed.messages` is an array, `messageIdCounter` exactly when
`parsed.messageIdCounter` is a number, and an absent or ill-typed field
leaves the corresponding state component unchanged. -/
theorem restore_snd_true (st : RawConv) (v : JsVal)
    (h1 : v ≠ .vNull) (h2 : v ≠ .vUndef) :
    (restore st (.parsedVal v)).2 = true := by
  cases v
  case vNull => exact absurd rfl h1
  case vUndef => exact absurd rfl h2
  all_goals rfl

theorem restore_messages_upd (st : RawConv) (v : JsVal)
    (h1 : v ≠ .vNull) (h2 : v ≠ .vUndef) :
    (∀ a, getField v (("messages").data) = some (.vArr a)
      → (restore st (.parsedVal v)).1.messages = a) ∧
    ((¬ ∃ a, getField v (("messages").data) = some (.vArr a))
      → (restore st (.parsedVal v)).1.messages = st.messages) := by
  cases v
  case vNull => exact absurd rfl h1
  case vUndef => exact absurd rfl h2
  all_goals (
    refine ⟨fun a ha => ?_, fun hno => ?_⟩
    · simp only [restore]
      split
      all_goals (
        try dsimp only
        split
        · rename_i heq
          rw [ha] at heq
          simp only [Option.some.injEq, JsVal.vArr.injEq] at heq
          subst heq
          rfl
        · rename_i hne
          exact absurd ha (hne a))
    · simp only [restore]
      split
      all_goals (
        try dsimp only
        split
        · rename_i a heq
          exact absurd ⟨a, heq⟩ hno
        · rfl))

theorem restore_counter_upd (st : RawConv) (v : JsVal)
    (h1 : v ≠ .vNull) (h2 : v ≠ .vUndef) :
    (∀ n, getField v (("messageIdCounter").data) = some (.vNum n)
      → (restore st (.parsedVal v)).1.messageIdCounter = n) ∧
    ((¬ ∃ n, getField v (("messageIdCounter").data) = some (.vNum n))
      → (restore st (.parsedVal v)).1.messageIdCounter = st.messageIdCounter) := by
  cases v
  case vNull => exact absurd rfl h1
  case vUndef => exact absurd rfl h2
  all_goals (
    refine ⟨fun n hn => ?_, fun hno => ?_⟩
    · simp only [restore]
      split
      · rename_i heq
        rw [hn] at heq
        simp only [Option.some.injEq, JsVal.vNum.injEq] at heq
        subst heq
        rfl
      · rename_i hne
        exact absurd hn (hne n)
    · simp only [restore]
      split
      · rename_i n heq
        exact absurd ⟨n, heq⟩ hno
      · try dsimp only
        split
        · rfl
        · rfl)

theorem restore_false_state_eq (st : RawConv) (input : RestoreInput)
    (h : (restore st input).2 = false) : (restore st input).1 = st := by
  cases input with
  | parseFail => rfl
  | parsedVal v =>
    cases v
    case vNull => rfl
    case vUndef => rfl
    all_goals (simp [restore] at h)

theorem restore_field_behavior (st : RawConv) (input : RestoreInput) :
    ((restore st input).2 = false
       ↔ input = .parseFail ∨ input = .parsedVal .vNull ∨ input = .parsedVal .vUndef) ∧
    ((restore st input).2 = false → (restore st input).1 = st) ∧
    (∀ v, input = .parsedVal v → v ≠ .vNull → v ≠ .vUndef →
      (restore st input).2 = true ∧
      (∀ a, getField v (("messages").data) = some (.vArr a)
        → (restore st input).1.messages = a) ∧
      ((¬ ∃ a, getField v (("messages").data) = some (.vArr a))
        → (restore st input).1.messages = st.messages) ∧
      (∀ n, getField v (("messageIdCounter").data) = some (.vNum n)
        → (restore st input).1.messageIdCounter = n) ∧
      ((¬ ∃ n, getField v (("messageIdCounter").data) = some (.vNum n))
        → (restore st input).1.messageIdCounter = st.messageIdCounter)) := by
  refine ⟨?_, restore_false_state_eq st input, ?_⟩
  · constructor
    · intro h
      cases input with
      | parseFail => exact Or.inl rfl
      | parsedVal v =>
        cases v
        case vNull => exact Or.inr (Or.inl rfl)
        case vUndef => exact Or.inr (Or.inr rfl)
        all_goals (simp [restore] at h)
    · intro h
      rcases h with h | h | h <;> subst h <;> rfl
  · intro v hv h1 h2
    subst hv
    obtain ⟨hm1, hm2⟩ := restore_messages_upd st v h1 h2
    obtain ⟨hc1, hc2⟩ := restore_counter_upd st v h1 h2
    exact ⟨restore_snd_true st v h1 h2, hm1, hm2, hc1, hc2⟩

/-- C9 witness: restoring `{"messageIdCounter": 7}` returns `true`, sets
the counter to 7 and leaves the message list unchanged. -/
theorem restore_field_behavior_witness :
    (restore ⟨[], 0⟩ (.parsedVal (.vObj [(("messageIdCounter").data, .vNum 7)]))).2 = true ∧
    (restore ⟨[], 0⟩ (.parsedVal (.vObj [(("messageIdCounter").data, .vNum 7)]))).1.messageIdCounter = 7 ∧
    (restore ⟨[], 0⟩ (.parsedVal (.vObj [(("messageIdCounter").data, .vNum 7)]))).1.messages = [] := by
  have h := (restore_field_behavior ⟨[], 0⟩
      (.parsedVal (.vObj [(("messageIdCounter").data, .vNum 7)]))).2.2
      (.vObj [(("messageIdCounter").data, .vNum 7)]) rfl
      (by intro hw; cases hw) (by intro hw; cases hw)
  exact ⟨h.1, h.2.2.2.1 7 rfl, h.2.2.1 (by rintro ⟨a, ha⟩; cases ha)⟩

/-- C10: `addMessage` accepts any content value that is not `null` and not
`undefined` (numbers, booleans, objects, arrays, strings) together with a
valid sender, and stores `String(content)` as the message content. -/
theorem addMessage_nonstring_content (st : ConvState) (content : JsVal)
    (sender : List Char) (ts : Option Int) (now : Int)
    (h1 : content ≠ .vNull) (h2 : content ≠ .vUndef)
    (h3 : sender = ("user").data ∨ sender = ("bot").data) :
    ∃ st' m, addMessage st content sender ts now = .ok (st', m) ∧
      m.content = jsToString content ∧ m.sender = sender := by
  cases content with
  | vNull => exact absurd rfl h1
  | vUndef => exact absurd rfl h2
  | vBool b => exact ⟨_, _, if_pos h3, rfl, rfl⟩
  | vNum n => exact ⟨_, _, if_pos h3, rfl, rfl⟩
  | vStr s => exact ⟨_, _, if_pos h3, rfl, rfl⟩
  | vArr xs => exact ⟨_, _, if_pos h3, rfl, rfl⟩
  | vObj fs => exact ⟨_, _, if_pos h3, rfl, rfl⟩

/-- C10 witness: adding the number `42` as a user message succeeds and
stores the string `"42"`. -/
theorem addMessage_nonstring_content_witness :
    ∃ st' m, addMessage (mkConversationManager none) (.vNum 42) (("user").data) none 5
        = .ok (st', m) ∧
      m.content = jsToString (.vNum 42) ∧ m.sender = ("user").data :=
  addMessage_nonstring_content (mkConversationManager none) (.vNum 42)
    (("user").data) none 5 (by intro h; cases h) (by intro h; cases h) (Or.inl rfl)

theorem pointsOf_bounds (t k : List Char) : 0 ≤ pointsOf t k ∧ pointsOf t k ≤ 1 := by
  unfold pointsOf
  split_ifs <;> norm_num

theorem points_sum_bounds (t : List Char) (ks : List (List Char)) :
    0 ≤ (ks.map (pointsOf t)).sum ∧ (ks.map (pointsOf t)).sum ≤ (ks.length : ℚ) := by
  induction ks with
  | nil => simp
  | cons k ks ih =>
    simp only [List.map_cons, List.sum_cons, List.length_cons]
    have hp := pointsOf_bounds t k
    constructor
    · linarith [ih.1, hp.1]
    · push_cast
      linarith [ih.2, hp.2]

theorem relLoop_eq (ks : List (List Char)) (t : List Char) :
    relLoop ks t = (((ks.filter fun k => 2 ≤ k.length).map (pointsOf t)).sum,
                    (ks.filter fun k => 2 ≤ k.length).length) := by
  induction ks with
  | nil => rfl
  | cons k ks ih =>
    simp only [relLoop, ih]
    by_cases hk : k.length < 2
    · rw [if_pos hk, List.filter_cons_of_neg (by simpa using hk)]
    · rw [if_neg hk, List.filter_cons_of_pos (by simpa using Nat.le_of_not_lt hk)]
      simp only [List.map_cons, List.sum_cons, List.length_cons]
      rw [add_comm]

theorem pointsOf_nil (k : List Char) (hk : 2 ≤ k.length) : pointsOf [] k = 0 := by
  obtain ⟨a, k', rfl⟩ : ∃ a k', k = a :: k' := by
    cases k with
    | nil => simp at hk
    | cons a k' => exact ⟨a, k', rfl⟩
  simp [pointsOf, wholeWord, containsSub, foldLower, List.isPrefixOf]

theorem calculateRelevance_unfold (item : JsVal) (kws : List (List Char)) :
    calculateRelevance item kws
      = if (jsFalsy item || kws.isEmpty) = true then 0
        else if (searchTextOf item).isEmpty = true then 0
        else if (relLoop kws (searchTextOf item)).2 = 0 then 0
        else (relLoop kws (searchTextOf item)).1
              / ((relLoop kws (searchTextOf item)).2 : ℚ) := rfl

theorem specRelevance_unfold (item : JsVal) (kws : List (List Char)) :
    specRelevance item kws
      = if ((kws.filter fun x => 2 ≤ x.length)).length = 0 then 0
        else (((kws.filter fun x => 2 ≤ x.length)).map
                fun x => pointsOf (searchTextOf item) x).sum
              / (((kws.filter fun x => 2 ≤ x.length)).length : ℚ) := rfl

theorem calculateRelevance_bounds (item : JsVal) (kws : List (List Char)) :
    0 ≤ calculateRelevance item kws ∧ calculateRelevance item kws ≤ 1 := by
  rw [calculateRelevance_unfold]
  split_ifs with h1 h2 h3
  · norm_num
  · norm_num
  · norm_num
  · rw [relLoop_eq] at h3 ⊢
    set qual := kws.filter fun k => 2 ≤ k.length with hq
    obtain ⟨hs0, hs1⟩ := points_sum_bounds (searchTextOf item) qual
    have hlen : (0 : ℚ) < qual.length := by
      have : 0 < qual.length := Nat.pos_of_ne_zero h3
      exact_mod_cast this
    constructor
    · exact div_nonneg hs0 (le_of_lt hlen)
    · rw [div_le_one hlen]
      exact hs1

theorem calculateRelevance_eq_spec (item : JsVal) (kws : List (List Char))
    (h : ¬ jsFalsy item = true) :
    calculateRelevance item kws = specRelevance item kws := by
  rw [calculateRelevance_unfold, specRelevance_unfold, eq_false_of_ne_true h]
  simp only [Bool.false_or]
  by_cases hkw : kws.isEmpty = true
  · rw [if_pos hkw]
    rw [List.isEmpty_iff] at hkw
    subst hkw
    simp
  · rw [if_neg hkw]
    by_cases htext : (searchTextOf item).isEmpty = true
    · rw [if_pos htext]
      rw [List.isEmpty_iff] at htext
      split_ifs with hlen
      · rfl
      · rw [htext]
        have hz : (((kws.filter fun x => 2 ≤ x.length).map
            fun x => pointsOf [] x).sum) = 0 := by
          apply List.sum_eq_zero
          intro x hx
          simp only [List.mem_map] at hx
          obtain ⟨k, hk, rfl⟩ := hx
          exact pointsOf_nil k (by simpa using (List.mem_filter.mp hk).2)
        rw [hz, zero_div]
    · rw [if_neg htext, relLoop_eq]

theorem searchArr_pos (kws : List (List Char)) (cat : Option String)
    (fname : Option (List Char)) (items : List JsVal) :
    ∀ r ∈ searchArr kws cat fname items, 0 < r.relevance := by
  induction items with
  | nil => intro r hr; cases hr
  | cons it rest ih =>
    intro r hr
    simp only [searchArr] at hr
    split at hr
    · rcases List.mem_cons.mp hr with h | h
      · subst h
        assumption
      · exact ih r h
    · exact ih r hr

theorem searchNested_pos (kws : List (List Char)) (cat : Option String)
    (fields : List (List Char × JsVal)) :
    ∀ r ∈ searchNested kws cat fields, 0 < r.relevance := by
  induction fields with
  | nil => intro r hr; cases hr
  | cons f rest ih =>
    intro r hr
    obtain ⟨k, v⟩ := f
    simp only [searchNested, List.mem_append] at hr
    rcases hr with hr | hr
    · cases v <;> simp only at hr <;> first
        | cases hr
        | exact searchArr_pos kws cat _ _ r hr
    · exact ih r hr

theorem searchInData_pos (d : JsVal) (kws : List (List Char)) (cat : Option String) :
    ∀ r ∈ searchInData d kws cat, 0 < r.relevance := by
  intro r hr
  cases d <;> simp only [searchInData] at hr
  case vArr items => exact searchArr_pos kws cat none items r hr
  case vObj fields =>
    rw [List.mem_append] at hr
    rcases hr with hr | hr
    · split at hr
      · rcases List.mem_cons.mp hr with h | h
        · subst h
          assumption
        · cases h
      · cases hr
    · exact searchNested_pos kws cat fields r hr
  all_goals cases hr

theorem scanArr_pos (kws : List (List Char)) (cat : Option String)
    (fname : Option (List Char)) (et : Bool) (thr : ℚ) (items : List JsVal) :
    ∀ r ∈ (scanArr kws cat fname et thr items).1, 0 < r.relevance := by
  induction items with
  | nil => intro r hr; cases hr
  | cons it rest ih =>
    intro r hr
    simp only [scanArr] at hr
    split at hr
    · split at hr
      · rcases List.mem_cons.mp hr with h | h
        · subst h
          assumption
        · cases h
      · rcases List.mem_cons.mp hr with h | h
        · subst h
          assumption
        · exact ih r h
    · exact ih r hr

theorem scanFields_pos (kws : List (List Char)) (cat : Option String)
    (et : Bool) (thr : ℚ) (fields : List (List Char × JsVal)) :
    ∀ r ∈ (scanFields kws cat et thr fields).1, 0 < r.relevance := by
  induction fields with
  | nil => intro r hr; cases hr
  | cons f rest ih =>
    intro r hr
    obtain ⟨k, v⟩ := f
    simp only [scanFields] at hr
    cases v <;> simp only at hr
    case vArr items =>
      split at hr
      · exact scanArr_pos kws cat (some k) et thr items r hr
      · rcases List.mem_append.mp hr with h | h
        · exact scanArr_pos kws cat (some k) et thr items r h
        · exact ih r h
    all_goals exact ih r hr

theorem searchInDataOptimized_pos (d : JsVal) (kws : List (List Char))
    (cat : Option String) (et : Bool) (thr : ℚ) :
    ∀ r ∈ searchInDataOptimized d kws cat et thr, 0 < r.relevance := by
  intro r hr
  cases d <;> simp only [searchInDataOptimized] at hr
  case vArr items => exact scanArr_pos kws cat none et thr items r hr
  case vObj fields =>
    split at hr
    · split at hr
      · rcases List.mem_cons.mp hr with h | h
        · subst h
          assumption
        · cases h
      · rcases List.mem_cons.mp hr with h | h
        · subst h
          assumption
        · exact scanFields_pos kws cat et thr fields r h
    · exact scanFields_pos kws cat et thr fields r hr
  all_goals cases hr

theorem searchCats_pos (kws : List (List Char)) (et : Bool) (thr : ℚ)
    (cats : List (String × JsVal)) (acc : List SearchResult)
    (hacc : ∀ r ∈ acc, 0 < r.relevance) :
    ∀ r ∈ searchCats kws et thr cats acc, 0 < r.relevance := by
  induction cats generalizing acc with
  | nil =>
    intro r hr
    simp only [searchCats, sortByRelevance, List.mem_insertionSort] at hr
    exact hacc r hr
  | cons c rest ih =>
    obtain ⟨name, d⟩ := c
    intro r hr
    simp only [searchCats] at hr
    have hacc' : ∀ x ∈ acc ++ searchInDataOptimized d kws (some name) et thr,
        0 < x.relevance := by
      intro x hx
      rcases List.mem_append.mp hx with h | h
      · exact hacc x h
      · exact searchInDataOptimized_pos d kws (some name) et thr x h
    split at hr
    · simp only [sortByRelevance, List.mem_insertionSort] at hr
      exact hacc' r hr
    · exact ih _ hacc' r hr

theorem search_pos (kb : KB) (kwIn : KeywordsInput) (et : Bool) :
    ∀ r ∈ search kb kwIn et, 0 < r.relevance := by
  intro r hr
  simp only [search] at hr
  split at hr
  · cases hr
  · exact searchCats_pos _ et kb.highConfidenceThreshold kb.data []
      (by intro x hx; cases hx) r hr

/-- C1 counterexample: the item `false` (a JavaScript-falsy value whose
flattened lowercase text is `"false"`) scores 0 in the code because of the
initial falsiness guard `if (!item ...) return 0`, while the claimed
formula gives a whole-word match of the keyword `"false"`, hence 1. -/
theorem relevance_falsy_item_cex :
    calculateRelevance (.vBool false) [("false").data] = 0 ∧
    specRelevance (.vBool false) [("false").data] = 1 := by
  constructor
  · rfl
  · have hp : pointsOf (searchTextOf (.vBool false)) (("false").data) = 1 := by
      rw [pointsOf, if_pos (by decide)]
    have hf : (([("false").data]).filter fun k => 2 ≤ k.length) = [("false").data] := by
      decide
    simp only [specRelevance, hf, List.map_cons, List.map_nil, List.sum_cons,
      List.sum_nil, List.length_cons, List.length_nil, hp]
    norm_num

/-- C1 (amended): for every item that is not JavaScript-falsy, the
relevance score equals (sum of points)/(count of keywords of length ≥ 2),
with 1 point per whole-word match and 1/2 per substring match in the
flattened lowercase item text (falsy items — in particular the boolean
`false` — score 0 unconditionally); the score always lies in [0, 1]; it is
0 when no keyword has length ≥ 2; and search/query results only contain
items of strictly positive relevance. -/
theorem relevance_formula_spec (item : JsVal) (kws : List (List Char))
    (d : JsVal) (cat : Option String) (kb : KB) (kwIn : KeywordsInput) (et : Bool) :
    (¬ jsFalsy item = true → calculateRelevance item kws = specRelevance item kws) ∧
    (0 ≤ calculateRelevance item kws ∧ calculateRelevance item kws ≤ 1) ∧
    ((kws.filter fun k => 2 ≤ k.length) = [] → calculateRelevance item kws = 0) ∧
    (∀ r ∈ searchInData d kws cat, 0 < r.relevance) ∧
    (∀ r ∈ search kb kwIn et, 0 < r.relevance) := by
  refine ⟨fun h => calculateRelevance_eq_spec item kws h,
    calculateRelevance_bounds item kws, fun hq => ?_,
    searchInData_pos d kws cat, search_pos kb kwIn et⟩
  rw [calculateRelevance_unfold]
  by_cases h1 : (jsFalsy item || kws.isEmpty) = true
  · rw [if_pos h1]
  · rw [if_neg h1]
    by_cases h2 : (searchTextOf item).isEmpty = true
    · rw [if_pos h2]
    · rw [if_neg h2, relLoop_eq, hq]
      simp

/-- C1 witness: on the non-falsy item `"hello world"` with keyword
`"hello"` the code's score and the spec formula agree. -/
theorem relevance_formula_witness :
    calculateRelevance (.vStr (("hello world").data)) [("hello").data]
      = specRelevance (.vStr (("hello world").data)) [("hello").data] :=
  (relevance_formula_spec (.vStr (("hello world").data)) [("hello").data]
      .vNull none ⟨[], 0⟩ .other false).1 (by decide)

/-- C6 counterexample: extending `["hello"]` with the keyword `"ell"` —
which matches the item `"hello world"` as a substring — lowers the
relevance from 1 to 3/4: a substring match contributes only 1/2 point but
a full unit to the denominator. -/
theorem relevance_monotone_cex :
    containsSub (("ell").data) (searchTextOf (.vStr (("hello world").data))) = true ∧
    calculateRelevance (.vStr (("hello world").data)) [("hello").data, ("ell").data]
      < calculateRelevance (.vStr (("hello world").data)) [("hello").data] := by
  have hhello : pointsOf (searchTextOf (.vStr (("hello world").data))) (("hello").data)
      = 1 := by
    rw [pointsOf, if_pos (by decide)]
  have hell : pointsOf (searchTextOf (.vStr (("hello world").data))) (("ell").data)
      = 1/2 := by
    rw [pointsOf, if_neg (by decide), if_pos (by decide)]
  refine ⟨by decide, ?_⟩
  have e1 := calculateRelevance_eq_spec (.vStr (("hello world").data))
    [("hello").data] (by decide)
  have e2 := calculateRelevance_eq_spec (.vStr (("hello world").data))
    [("hello").data, ("ell").data] (by decide)
  rw [e1, e2, specRelevance_unfold, specRelevance_unfold,
    (by decide : ([("hello").data, ("ell").data].filter fun x => 2 ≤ x.length)
      = [("hello").data, ("ell").data]),
    (by decide : ([("hello").data].filter fun x => 2 ≤ x.length)
      = [("hello").data])]
  simp only [List.map_cons, List.map_nil, List.sum_cons, List.sum_nil,
    List.length_cons, List.length_nil, hhello, hell]
  norm_num

/-- C6 (amended): extending the keyword list with an additional keyword
that matches the item as a whole word (the strong match kind) never
decreases the relevance score.  (An additional keyword that matches only
as a substring can decrease it, see the counterexample.) -/
theorem relevance_monotone_wholeWord (item : JsVal) (kws : List (List Char))
    (k : List Char) (hk : wholeWord k (searchTextOf item) = true) :
    calculateRelevance item kws ≤ calculateRelevance item (kws ++ [k]) := by
  by_cases hf : jsFalsy item = true
  · simp only [calculateRelevance]
    rw [hf]
    simp
  · by_cases hkw : kws.isEmpty
    · have h0 : calculateRelevance item kws = 0 := by
        unfold calculateRelevance
        rw [hkw]
        simp
      rw [h0]
      exact (calculateRelevance_bounds item (kws ++ [k])).1
    · have hkw' : (kws ++ [k]).isEmpty = false := by
        simp [List.isEmpty_iff]
      have hc1 : ¬ ((jsFalsy item || kws.isEmpty) = true) := by
        simp [eq_false_of_ne_true hf, Bool.eq_false_iff.mpr hkw]
      have hc2 : ¬ ((jsFalsy item || (kws ++ [k]).isEmpty) = true) := by
        simp [eq_false_of_ne_true hf, hkw']
      rw [calculateRelevance_unfold, calculateRelevance_unfold, if_neg hc1, if_neg hc2]
      by_cases htext : (searchTextOf item).isEmpty = true
      · rw [if_pos htext, if_pos htext]
      · rw [if_neg htext, if_neg htext]
        rw [relLoop_eq, relLoop_eq]
        rw [List.filter_append]
        by_cases hlen : 2 ≤ k.length
        · have hfk : [k].filter (fun x => decide (2 ≤ x.length)) = [k] := by
            simp [hlen]
          rw [hfk]
          set qual := kws.filter fun x => 2 ≤ x.length with hq
          set s := (qual.map (pointsOf (searchTextOf item))).sum with hs
          have hpk : pointsOf (searchTextOf item) k = 1 := by
            unfold pointsOf
            rw [if_pos hk]
          simp only [List.map_append, List.sum_append, List.length_append,
            List.map_cons, List.map_nil, List.sum_cons, List.sum_nil,
            List.length_cons, List.length_nil, hpk]
          obtain ⟨hs0, hs1⟩ := points_sum_bounds (searchTextOf item) qual
          by_cases hq0 : qual.length = 0
          · rw [if_pos hq0]
            rw [hq0]
            have hqnil : qual = [] := List.length_eq_zero.mp hq0
            rw [if_neg (by omega : ¬ (0 + 1 = 0))]
            rw [hqnil]
            simp
          · rw [if_neg hq0, if_neg (by omega : ¬ (qual.length + 1 = 0))]
            have hqpos : (0 : ℚ) < qual.length := by
              exact_mod_cast Nat.pos_of_ne_zero hq0
            have hqpos1 : (0 : ℚ) < (qual.length : ℚ) + 1 := by linarith
            rw [div_le_div_iff₀ hqpos (by push_cast; linarith)]
            push_cast
            nlinarith [hs1]
        · have hfk : [k].filter (fun x => decide (2 ≤ x.length)) = [] := by
            simp [hlen]
          rw [hfk, List.append_nil]

/-- C6 witness: adding the whole-word-matching keyword `"world"` to
`["hello"]` on the item `"hello world"` does not decrease the relevance. -/
theorem relevance_monotone_wholeWord_witness :
    calculateRelevance (.vStr (("hello world").data)) [("hello").data]
      ≤ calculateRelevance (.vStr (("hello world").data))
          ([("hello").data] ++ [("world").data]) :=
  relevance_monotone_wholeWord (.vStr (("hello world").data)) [("hello").data]
    (("world").data) (by decide)

theorem pickStep_fst (a : Nat × String) (p : String × Nat) :
    (pickStep a p).1 = max a.1 p.2 := by
  unfold pickStep
  split <;> omega

theorem foldl_pickStep_fst (l : List (String × Nat)) (a : Nat × String) :
    (l.foldl pickStep a).1 = l.foldl (fun m p => max m p.2) a.1 := by
  induction l generalizing a with
  | nil => rfl
  | cons p rest ih =>
    simp only [List.foldl_cons]
    rw [ih]
    congr 1
    exact pickStep_fst a p

theorem foldl_pickStep_spec (l : List (String × Nat)) (a : Nat × String) :
    (l.foldl pickStep a = a ∧ ∀ p ∈ l, p.2 ≤ a.1) ∨
    (a.1 < (l.foldl pickStep a).1 ∧ ∃ l1 l2,
      l = l1 ++ ((l.foldl pickStep a).2, (l.foldl pickStep a).1) :: l2 ∧
      (∀ p ∈ l1, p.2 < (l.foldl pickStep a).1) ∧
      (∀ p ∈ l2, p.2 ≤ (l.foldl pickStep a).1)) := by
  induction l generalizing a with
  | nil => exact Or.inl ⟨rfl, by intro p hp; cases hp⟩
  | cons p rest ih =>
    simp only [List.foldl_cons]
    by_cases h : a.1 < p.2
    · have hstep : pickStep a p = (p.2, p.1) := if_pos h
      rw [hstep]
      rcases ih (p.2, p.1) with ⟨heq, hall⟩ | ⟨hlt, l1, l2, hsplit, hl1, hl2⟩
      · refine Or.inr ⟨by rw [heq]; exact h, [], rest, ?_, ?_, ?_⟩
        · rw [heq]
          rfl
        · intro x hx
          cases hx
        · intro x hx
          rw [heq]
          exact hall x hx
      · refine Or.inr ⟨lt_trans h hlt, p :: l1, l2, ?_, ?_, hl2⟩
        · rw [List.cons_append, ← hsplit]
        · intro x hx
          rcases List.mem_cons.mp hx with hx | hx
          · subst hx
            exact hlt
          · exact hl1 x hx
    · have hstep : pickStep a p = a := if_neg h
      rw [hstep]
      rcases ih a with ⟨heq, hall⟩ | ⟨hlt, l1, l2, hsplit, hl1, hl2⟩
      · refine Or.inl ⟨heq, ?_⟩
        intro x hx
        rcases List.mem_cons.mp hx with hx | hx
        · subst hx
          omega
        · exact hall x hx
      · refine Or.inr ⟨hlt, p :: l1, l2, ?_, ?_, hl2⟩
        · rw [List.cons_append, ← hsplit]
        · intro x hx
          rcases List.mem_cons.mp hx with hx | hx
          · subst hx
            omega
          · exact hl1 x hx

theorem detectIntent_unfold (q : List Char) :
    detectIntent q
      = if q.isEmpty = true then "general"
        else if (pickBest (intentScores q)).1 < 2 then "general"
        else (pickBest (intentScores q)).2 := rfl

theorem pickBest_fst_eq_max (q : List Char) :
    (pickBest (intentScores q)).1 = maxIntentScore q :=
  foldl_pickStep_fst (intentScores q) (0, ("general" : String))

/-- C2: `detectIntent` returns the category whose aggregate pattern score
is strictly highest (per high pattern +5 on a substring phrase match else
+4 on a whole-word match; per medium pattern +2 on a whole-word match else
+1 on a substring match); on a tie the first category in iteration order
wins (all earlier categories score strictly less, all later ones at most
as much); and when the maximum score is below 2 the result is the intent
`general`. -/
theorem detectIntent_argmax (q : List Char) :
    (maxIntentScore q < 2 → detectIntent q = "general") ∧
    (2 ≤ maxIntentScore q →
      ∃ l1 l2, intentScores q = l1 ++ (detectIntent q, maxIntentScore q) :: l2 ∧
        (∀ p ∈ l1, p.2 < maxIntentScore q) ∧
        (∀ p ∈ l2, p.2 ≤ maxIntentScore q)) := by
  constructor
  · intro h
    rw [detectIntent_unfold]
    by_cases hq : q.isEmpty = true
    · rw [if_pos hq]
    · rw [if_neg hq, if_pos (by rw [pickBest_fst_eq_max]; exact h)]
  · intro h
    have hq : q.isEmpty = false := by
      cases q with
      | nil =>
        have h0 : maxIntentScore ([] : List Char) = 0 := by decide
        rw [h0] at h
        omega
      | cons c rest => rfl
    have hdi : detectIntent q = (pickBest (intentScores q)).2 := by
      rw [detectIntent_unfold, hq]
      simp only [Bool.false_eq_true, if_false]
      rw [if_neg (by rw [pickBest_fst_eq_max]; omega)]
    rcases foldl_pickStep_spec (intentScores q) (0, ("general" : String)) with
      ⟨heq, _⟩ | ⟨_, l1, l2, hsplit, hl1, hl2⟩
    · exfalso
      have : (pickBest (intentScores q)).1 = 0 := by
        unfold pickBest
        rw [heq]
      rw [pickBest_fst_eq_max] at this
      omega
    · refine ⟨l1, l2, ?_, ?_, ?_⟩
      · rw [hdi, ← pickBest_fst_eq_max]
        exact hsplit
      · intro p hp
        rw [← pickBest_fst_eq_max]
        exact hl1 p hp
      · intro p hp
        rw [← pickBest_fst_eq_max]
        exact hl2 p hp

/-- C2 witness: a gibberish query scores below 2 everywhere and detects
the intent `general`. -/
theorem detectIntent_argmax_witness :
    detectIntent (("zzz").data) = "general" :=
  (detectIntent_argmax (("zzz").data)).1 (by decide)

theorem sorted_sortByRelevance (l : List SearchResult) :
    (sortByRelevance l).Sorted relGE :=
  List.sorted_insertionSort relGE l

theorem searchCats_sorted (kws : List (List Char)) (et : Bool) (thr : ℚ)
    (cats : List (String × JsVal)) (acc : List SearchResult) :
    (searchCats kws et thr cats acc).Sorted relGE := by
  induction cats generalizing acc with
  | nil => exact sorted_sortByRelevance acc
  | cons c rest ih =>
    obtain ⟨name, d⟩ := c
    simp only [searchCats]
    split
    · exact sorted_sortByRelevance _
    · exact ih _

/-- C4: `search` results are sorted by relevance in descending order:
pairwise, every later result has relevance at most that of every earlier
result (equivalently, for any two positions `i < j` of the returned list,
the relevance at `j` is at most the relevance at `i`); this holds whether
or not early termination fires (every return path sorts before
returning). -/
theorem search_sorted_desc (kb : KB) (kwIn : KeywordsInput) (et : Bool) :
    (search kb kwIn et).Pairwise (fun a b => b.relevance ≤ a.relevance) := by
  have hs : (search kb kwIn et).Sorted relGE := by
    simp only [search]
    split
    · exact List.Pairwise.nil
    · exact searchCats_sorted _ et kb.highConfidenceThreshold kb.data []
  exact hs

theorem scanArr_false_snd (kws : List (List Char)) (cat : Option String)
    (fname : Option (List Char)) (thr : ℚ) (items : List JsVal) :
    (scanArr kws cat fname false thr items).2 = false := by
  induction items with
  | nil => rfl
  | cons it rest ih =>
    simp only [scanArr]
    split
    · rw [if_neg (by simp)]
      exact ih
    · exact ih

theorem scanArr_true_eq_false (kws : List (List Char)) (cat : Option String)
    (fname : Option (List Char)) (thr : ℚ) (items : List JsVal)
    (H : ∀ r ∈ (scanArr kws cat fname false thr items).1, r.relevance < thr) :
    scanArr kws cat fname true thr items = scanArr kws cat fname false thr items := by
  induction items with
  | nil => rfl
  | cons it rest ih =>
    simp only [scanArr] at H ⊢
    by_cases hrel : 0 < calculateRelevance it kws
    · simp only [if_pos hrel] at H ⊢
      simp only [if_neg (show ¬ ((false && decide (thr ≤ calculateRelevance it kws)) = true)
        from by simp)] at H
      have hx : calculateRelevance it kws < thr :=
        H ⟨it, calculateRelevance it kws, cat, fname⟩ (List.mem_cons_self _ _)
      simp only [if_neg (show ¬ ((true && decide (thr ≤ calculateRelevance it kws)) = true)
        from by simp only [Bool.true_and, decide_eq_true_eq]; exact not_le.mpr hx),
        if_neg (show ¬ ((false && decide (thr ≤ calculateRelevance it kws)) = true)
        from by simp)]
      rw [ih (fun r hr => H r (List.mem_cons_of_mem _ hr))]
    · simp only [if_neg hrel] at H ⊢
      exact ih H

theorem scanFields_true_eq_false (kws : List (List Char)) (cat : Option String)
    (thr : ℚ) (fields : List (List Char × JsVal))
    (H : ∀ r ∈ (scanFields kws cat false thr fields).1, r.relevance < thr) :
    scanFields kws cat true thr fields = scanFields kws cat false thr fields := by
  induction fields with
  | nil => rfl
  | cons f rest ih =>
    obtain ⟨k, v⟩ := f
    cases v
    case vArr items =>
      simp only [scanFields] at H ⊢
      have hf2 := scanArr_false_snd kws cat (some k) thr items
      rw [hf2] at H
      simp only [if_neg (show ¬ ((false : Bool) = true) from by simp)] at H
      have Harr : ∀ r ∈ (scanArr kws cat (some k) false thr items).1,
          r.relevance < thr := fun r hr => H r (List.mem_append_left _ hr)
      have Hrest : ∀ r ∈ (scanFields kws cat false thr rest).1,
          r.relevance < thr := fun r hr => H r (List.mem_append_right _ hr)
      rw [scanArr_true_eq_false kws cat (some k) thr items Harr, hf2]
      simp only [if_neg (show ¬ ((false : Bool) = true) from by simp)]
      rw [ih Hrest]
    all_goals (simp only [scanFields] at H ⊢; exact ih H)

theorem searchInDataOptimized_true_eq_false (d : JsVal) (kws : List (List Char))
    (cat : Option String) (thr : ℚ)
    (H : ∀ r ∈ searchInDataOptimized d kws cat false thr, r.relevance < thr) :
    searchInDataOptimized d kws cat true thr
      = searchInDataOptimized d kws cat false thr := by
  cases d
  case vArr items =>
    simp only [searchInDataOptimized] at H ⊢
    rw [scanArr_true_eq_false kws cat none thr items H]
  case vObj fields =>
    simp only [searchInDataOptimized] at H ⊢
    by_cases hrel : 0 < calculateRelevance (.vObj fields) kws
    · simp only [if_pos hrel] at H ⊢
      simp only [if_neg (show ¬ ((false
          && decide (thr ≤ calculateRelevance (.vObj fields) kws)) = true)
        from by simp)] at H
      have hx : calculateRelevance (.vObj fields) kws < thr :=
        H ⟨.vObj fields, calculateRelevance (.vObj fields) kws, cat, none⟩
          (List.mem_cons_self _ _)
      simp only [if_neg (show ¬ ((true
          && decide (thr ≤ calculateRelevance (.vObj fields) kws)) = true)
        from by simp only [Bool.true_and, decide_eq_true_eq]; exact not_le.mpr hx),
        if_neg (show ¬ ((false
          && decide (thr ≤ calculateRelevance (.vObj fields) kws)) = true)
        from by simp)]
      rw [scanFields_true_eq_false kws cat thr fields
        (fun r hr => H r (List.mem_cons_of_mem _ hr))]
    · simp only [if_neg hrel] at H ⊢
      rw [scanFields_true_eq_false kws cat thr fields H]
  all_goals rfl

theorem searchCats_true_eq_false (kws : List (List Char)) (thr : ℚ)
    (cats : List (String × JsVal)) (acc : List SearchResult)
    (H : ∀ p ∈ cats, ∀ r ∈ searchInDataOptimized p.2 kws (some p.1) false thr,
      r.relevance < thr) :
    searchCats kws true thr cats acc = searchCats kws false thr cats acc := by
  induction cats generalizing acc with
  | nil => rfl
  | cons c rest ih =>
    obtain ⟨name, d⟩ := c
    simp only [searchCats]
    have Hc := H (name, d) (List.mem_cons_self _ _)
    rw [searchInDataOptimized_true_eq_false d kws (some name) thr Hc]
    have hany : (searchInDataOptimized d kws (some name) false thr).any
        (fun r => decide (thr ≤ r.relevance)) = false := by
      rw [List.any_eq_false]
      intro x hx
      simp only [decide_eq_true_eq]
      exact not_le.mpr (Hc x hx)
    rw [hany]
    simp only [if_neg (show ¬ ((true && false) = true) from by simp),
      if_neg (show ¬ ((false && false) = true) from by simp)]
    exact ih _ (fun p hp => H p (List.mem_cons_of_mem _ hp))

/-- C5 (amended): search with early termination enabled returns exactly
the same results as the full scan, provided no scanned result reaches the
high-confidence threshold; when some result does reach it, early
termination may truncate the result set (see the counterexample), so it
is not an unconditional pure latency optimization. -/
theorem search_earlyTermination_equiv (kb : KB) (kwIn : KeywordsInput)
    (H : ∀ p ∈ kb.data,
      ∀ r ∈ searchInDataOptimized p.2 (normalizeKeywords kwIn) (some p.1) false
        kb.highConfidenceThreshold,
      r.relevance < kb.highConfidenceThreshold) :
    search kb kwIn true = search kb kwIn false := by
  simp only [search]
  split
  · rfl
  · exact searchCats_true_eq_false _ kb.highConfidenceThreshold kb.data [] H

theorem calculateRelevance_helloWorld :
    calculateRelevance (.vStr (("hello world").data)) [("hello").data] = 1 := by
  have hhello : pointsOf (searchTextOf (.vStr (("hello world").data)))
      (("hello").data) = 1 := by
    rw [pointsOf, if_pos (by decide)]
  rw [calculateRelevance_eq_spec _ _ (by decide), specRelevance_unfold,
    (by decide : ([("hello").data].filter fun x => 2 ≤ x.length) = [("hello").data])]
  simp only [List.map_cons, List.map_nil, List.sum_cons, List.sum_nil,
    List.length_cons, List.length_nil, hhello]
  norm_num

theorem scanArr_two_high (kws : List (List Char)) (cat : Option String) (thr : ℚ)
    (it : JsVal) (hrel : calculateRelevance it kws = 1) (hthr : thr ≤ 1) :
    scanArr kws cat none true thr [it, it] = ([⟨it, 1, cat, none⟩], true) := by
  simp only [scanArr, hrel, if_pos (show (0:ℚ) < 1 from by norm_num),
    decide_eq_true hthr, Bool.true_and, if_true]

theorem scanArr_two_noET (kws : List (List Char)) (cat : Option String) (thr : ℚ)
    (it : JsVal) (hrel : calculateRelevance it kws = 1) :
    scanArr kws cat none false thr [it, it]
      = ([⟨it, 1, cat, none⟩, ⟨it, 1, cat, none⟩], false) := by
  simp only [scanArr, hrel, if_pos (show (0:ℚ) < 1 from by norm_num), Bool.false_and,
    if_neg (show ¬ ((false : Bool) = true) from by simp)]

theorem search_truncation_lengths (name : String) (kwIn : KeywordsInput) (thr : ℚ)
    (it : JsVal) (hrel : calculateRelevance it (normalizeKeywords kwIn) = 1)
    (hthr : thr ≤ 1) (hne : (normalizeKeywords kwIn).isEmpty = false) :
    (search ⟨[(name, .vArr [it, it])], thr⟩ kwIn true).length = 1 ∧
    (search ⟨[(name, .vArr [it, it])], thr⟩ kwIn false).length = 2 := by
  have hsAt := scanArr_two_high (normalizeKeywords kwIn) (some name) thr it hrel hthr
  have hsAf := scanArr_two_noET (normalizeKeywords kwIn) (some name) thr it hrel
  constructor
  · simp only [search, hne, if_neg (show ¬ ((false : Bool) = true) from by simp),
      searchCats, searchInDataOptimized, hsAt, List.any_cons, List.any_nil,
      decide_eq_true hthr, Bool.or_false, Bool.true_and, if_true,
      sortByRelevance, List.nil_append]
    rw [List.length_insertionSort]
    rfl
  · simp only [search, hne, if_neg (show ¬ ((false : Bool) = true) from by simp),
      searchCats, searchInDataOptimized, hsAf, Bool.false_and, sortByRelevance,
      List.nil_append]
    rw [List.length_insertionSort]
    rfl

/-- C5 counterexample: on a knowledge base whose single category holds two
identical items matching the keyword `"hello"` with relevance 1 (at or
above the 0.85 threshold), search with early termination returns one
result while the full scan returns two: the result sets differ. -/
theorem earlyTermination_cex :
    search ⟨[(("a" : String),
        .vArr [.vStr (("hello world").data), .vStr (("hello world").data)])], 85/100⟩
      (.ofStr (("hello").data)) true
    ≠ search ⟨[(("a" : String),
        .vArr [.vStr (("hello world").data), .vStr (("hello world").data)])], 85/100⟩
      (.ofStr (("hello").data)) false := by
  have h := search_truncation_lengths "a" (.ofStr (("hello").data)) (85/100)
    (.vStr (("hello world").data))
    (by rw [(by decide : normalizeKeywords (.ofStr (("hello").data)) = [("hello").data])]
        exact calculateRelevance_helloWorld)
    (by norm_num) (by decide)
  intro hEq
  rw [hEq] at h
  exact absurd (h.1.symm.trans h.2) (by decide)

theorem calculateRelevance_helloWorld_zz :
    calculateRelevance (.vStr (("hello world").data))
      [("hello").data, ("zz").data] = 1/2 := by
  have hhello : pointsOf (searchTextOf (.vStr (("hello world").data)))
      (("hello").data) = 1 := by
    rw [pointsOf, if_pos (by decide)]
  have hzz : pointsOf (searchTextOf (.vStr (("hello world").data)))
      (("zz").data) = 0 := by
    rw [pointsOf, if_neg (by decide), if_neg (by decide)]
  rw [calculateRelevance_eq_spec _ _ (by decide), specRelevance_unfold,
    (by decide : ([("hello").data, ("zz").data].filter fun x => 2 ≤ x.length)
      = [("hello").data, ("zz").data])]
  simp only [List.map_cons, List.map_nil, List.sum_cons, List.sum_nil,
    List.length_cons, List.length_nil, hhello, hzz]
  norm_num

theorem searchInDataOptimized_single (kws : List (List Char)) (cat : Option String)
    (thr : ℚ) (it : JsVal) (v : ℚ) (hrel : calculateRelevance it kws = v)
    (hpos : 0 < v) :
    searchInDataOptimized (.vArr [it]) kws cat false thr = [⟨it, v, cat, none⟩] := by
  simp only [searchInDataOptimized, scanArr, hrel, if_pos hpos, Bool.false_and,
    if_neg (show ¬ ((false : Bool) = true) from by simp)]

/-- C5 witness: on a knowledge base where the best relevance is 1/2,
below the threshold, early termination returns the same results as the
full scan. -/
theorem search_earlyTermination_equiv_witness :
    search ⟨[(("a" : String), .vArr [.vStr (("hello world").data)])], 85/100⟩
      (.ofStr (("hello zz").data)) true
    = search ⟨[(("a" : String), .vArr [.vStr (("hello world").data)])], 85/100⟩
      (.ofStr (("hello zz").data)) false := by
  apply search_earlyTermination_equiv
  intro p hp r hr
  simp only [List.mem_cons, List.not_mem_nil, or_false] at hp
  subst hp
  dsimp only at hr
  rw [(by decide : normalizeKeywords (.ofStr (("hello zz").data))
    = [("hello").data, ("zz").data])] at hr
  rw [searchInDataOptimized_single [("hello").data, ("zz").data] (some "a") (85/100)
    (.vStr (("hello world").data)) (1/2) calculateRelevance_helloWorld_zz
    (by norm_num)] at hr
  simp only [List.mem_cons, List.not_mem_nil, or_false] at hr
  subst hr
  show (1:ℚ)/2 < 85/100
  norm_num

end Chatbot
